import Mathlib

/-!
Verification of the CGM event-segmentation and metrics engine
(`events.py`, `features.py`) against its natural-language specification.

Shallow embedding conventions:
* A CGM trace is a list of samples `(t, g)` with `t` the timestamp in
  minutes and `g` the glucose value, both rationals (the Python code works
  on floats but performs only field arithmetic on them; the one genuinely
  irrational operation, `std = sqrt(variance)`, is embedded with
  `Real.sqrt` where its value is needed and with equivalent squared
  rational comparisons where only an order comparison against it occurs —
  bridging lemmas `lt_sqrt_iff_sq_lt` etc. justify the encoding).
* Operations that raise in Python on out-of-range access are embedded with
  `Except String` / `Option`; `NaN` results are embedded as `Option.none`.
* Pandas column names (`config.ini` is not part of the sources) and the
  sampling `interval` configuration value are explicit parameters.
-/

/-- One CGM sample: timestamp `t` in minutes, glucose `g` in mg/dL. -/
structure Sample where
  t : ℚ
  g : ℚ
deriving DecidableEq, Repr

instance : Inhabited Sample := ⟨⟨0, 0⟩⟩

/-- Mean of a list of rationals (`np.mean` / `Series.mean`); division by the
length, 0 on the empty list (callers guard the NaN case separately). -/
def qMean (l : List ℚ) : ℚ := l.sum / l.length

/-- Sample variance with `ddof = 1` (pandas `Series.var` default), the square
of `Series.std`.  For `l.length ≤ 1` the rational division yields 0. -/
def qVar (l : List ℚ) : ℚ :=
  (l.map (fun x => (x - qMean l) ^ 2)).sum / ((l.length : ℚ) - 1)

/-- `scipy.integrate.trapezoid` applied with unit spacing: the sum of
`(a + b) / 2` over consecutive pairs. -/
def trapSum : List ℚ → ℚ
  | [] => 0
  | [_] => 0
  | a :: b :: rest => (a + b) / 2 + trapSum (b :: rest)

/-- `events.AUC` / `features.AUC`: trapezoidal integration of the glucose
column with `dx = interval`. -/
def qAUC (l : List ℚ) (dx : ℚ) : ℚ := dx * trapSum l

/-- `events.iAUC` (events.py line 425): glucose replaced by
`abs(glucose - level)`, values `< 0` then clamped to 0 (a no-op after `abs`),
then `AUC`. -/
def eventsIAUC (l : List ℚ) (level dx : ℚ) : ℚ :=
  qAUC (l.map fun g => let d := |g - level|; if d < 0 then 0 else d) dx

/-- `features.iAUC` (features.py line 64): glucose replaced by
`glucose - level` (no `abs`), values `< 0` clamped to 0, then `AUC`. -/
def featuresIAUC (l : List ℚ) (level dx : ℚ) : ℚ :=
  qAUC (l.map fun g => let d := g - level; if d < 0 then 0 else d) dx

/-- The spec's transformed series for iAUC: `max(0, |glucose − level|)`,
protrusion beyond the level in either direction. -/
def specIAUCBoth (l : List ℚ) (level dx : ℚ) : ℚ :=
  qAUC (l.map fun g => max 0 |g - level|) dx

/-- Area only above the level: `max(0, glucose − level)`. -/
def specIAUCAbove (l : List ℚ) (level dx : ℚ) : ℚ :=
  qAUC (l.map fun g => max 0 (g - level)) dx

/-- `events.baseline` (events.py line 440): `df[GLUCOSE].iloc[0]`; `none`
models the `IndexError` on an empty series. -/
def eventsBaseline (trace : List Sample) : Option ℚ :=
  trace.head?.map Sample.g

/-- `features.baseline` (features.py line 71): `df[TIME].iloc[0]` — it reads
the TIME column, not the GLUCOSE column. -/
def featuresBaseline (trace : List Sample) : Option ℚ :=
  trace.head?.map Sample.t

/-- A one-sample demonstration trace: timestamp 7 min, glucose 100 mg/dL. -/
def demoTrace : List Sample := [⟨7, 100⟩]

/-- C2: `events.baseline` returns the first glucose value of any non-empty
series. -/
theorem eventsBaseline_first_glucose (trace : List Sample) (s : Sample)
    (h : trace.head? = some s) :
    eventsBaseline trace = some s.g := by
  simp [eventsBaseline, h]

/-- Witness for `eventsBaseline_first_glucose` at the concrete trace. -/
theorem eventsBaseline_first_glucose_witness :
    demoTrace.head? = some (⟨7, 100⟩ : Sample) ∧
      eventsBaseline demoTrace = some (100 : ℚ) :=
  ⟨by decide, eventsBaseline_first_glucose demoTrace ⟨7, 100⟩ (by decide)⟩

/-- C2: on the one-sample trace (t = 7, g = 100), `features.baseline` returns
the timestamp 7, not the glucose value 100, while `events.baseline` returns
100 — features.py's `baseline` reads the TIME column against its own declared
contract. -/
theorem featuresBaseline_returns_timestamp :
    featuresBaseline demoTrace = some 7 ∧
      eventsBaseline demoTrace = some 100 ∧ (7 : ℚ) ≠ 100 := by
  refine ⟨by decide, by decide, by decide⟩

/-- C3 counterexample: on the series [50, 50] with level 70 and dx 5,
`features.iAUC` returns 0 whereas the AUC of `max(0, |g − 70|)` is 100 —
`features.iAUC` does not count area below the level. -/
theorem featuresIAUC_ne_both_sides :
    featuresIAUC [50, 50] 70 5 ≠ specIAUCBoth [50, 50] 70 5 := by
  unfold featuresIAUC specIAUCBoth qAUC
  norm_num [trapSum]

/-- C3A (amended): `events.iAUC` equals the trapezoidal AUC of
`max(0, |glucose − level|)` (both directions), while `features.iAUC` equals
the trapezoidal AUC of `max(0, glucose − level)` (area above the level
only). -/
theorem iAUC_characterization (l : List ℚ) (level dx : ℚ) :
    eventsIAUC l level dx = specIAUCBoth l level dx ∧
      featuresIAUC l level dx = specIAUCAbove l level dx := by
  constructor
  · have h : (l.map fun g => let d := |g - level|; if d < 0 then 0 else d)
        = l.map (fun g => max 0 |g - level|) := by
      apply List.map_congr_left
      intro g _
      have habs : (0 : ℚ) ≤ |g - level| := abs_nonneg _
      show (if |g - level| < 0 then 0 else |g - level|) = max 0 |g - level|
      rw [if_neg (not_lt.mpr habs), max_eq_right habs]
    unfold eventsIAUC specIAUCBoth
    rw [h]
  · have h : (l.map fun g => let d := g - level; if d < 0 then 0 else d)
        = l.map (fun g => max 0 (g - level)) := by
      apply List.map_congr_left
      intro g _
      show (if g - level < 0 then 0 else g - level) = max 0 (g - level)
      by_cases h : g - level < 0
      · rw [if_pos h, max_eq_left (le_of_lt h)]
      · rw [if_neg h, max_eq_right (not_lt.mp h)]
    unfold featuresIAUC specIAUCAbove
    rw [h]

/-- `features.percent_time_in_range` (features.py line 50): percentage of
samples with `low ≤ g ≤ high` (inclusive); `none` models the `np.nan`
returned for an empty series. -/
def percentTimeInRange (l : List ℚ) (low high : ℚ) : Option ℚ :=
  if l.length = 0 then none
  else some (100 * ((l.filter fun g => decide (low ≤ g) && decide (g ≤ high)).length : ℚ)
    / l.length)

/-- `features.std`: pandas sample standard deviation, the square root of the
`ddof = 1` variance.  (For a one-sample series pandas yields NaN while this
yields 0; both make `COGI`'s comparisons `sd ≥ 108` and `sd > 18` false, so
`COGI` is unaffected.) -/
noncomputable def stdReal (l : List ℚ) : ℝ := Real.sqrt (qVar l)

/-- `features.COGI` (features.py line 142), translated branch by branch:
`0.5·TIR[70,180] + 0.35·(1 − min(TIR[0,70],15)/15)·100 + 0.15·sd_score` with
`sd_score = 0` if `sd ≥ 108`, else the interpolation if `sd > 18`, else
100. -/
noncomputable def COGI (l : List ℚ) : Option ℝ :=
  (percentTimeInRange l 70 180).bind fun (tir : ℚ) =>
  (percentTimeInRange l 0 70).map fun (tbr : ℚ) =>
    let tirScore : ℝ := 0.5 * (tir : ℝ)
    let tbrScore : ℝ := 0.35 * ((1 - min (tbr : ℝ) 15 / 15) * 100)
    let sd := stdReal l
    let sdScore : ℝ := if 108 ≤ sd then 0 else if 18 < sd then (1 - sd / 108) * 100 else 100
    tirScore + tbrScore + 0.15 * sdScore

/-- The claim's sd score: 100 only for `sd < 18` strictly, with the
interpolated branch applying at `sd = 18`. -/
noncomputable def claimedSdScore (sd : ℝ) : ℝ :=
  if sd < 18 then 100 else if 108 ≤ sd then 0 else (1 - sd / 108) * 100

/-- The amended sd score: 100 for `sd ≤ 18`, matching the code's boundary. -/
noncomputable def specSdScore (sd : ℝ) : ℝ :=
  if sd ≤ 18 then 100 else if 108 ≤ sd then 0 else (1 - sd / 108) * 100

/-- `COGI` as the claim words it (sd = 18 interpolated). -/
noncomputable def claimedCOGI (l : List ℚ) : Option ℝ :=
  (percentTimeInRange l 70 180).bind fun (tir : ℚ) =>
  (percentTimeInRange l 0 70).map fun (tbr : ℚ) =>
    0.5 * (tir : ℝ) + 0.35 * ((1 - min (tbr : ℝ) 15 / 15) * 100)
      + 0.15 * claimedSdScore (stdReal l)

/-- The series [82, 100, 118] has mean 100 and sample standard deviation
exactly 18 (variance 648 / 2 = 324). -/
theorem stdReal_18_series : stdReal [82, 100, 118] = 18 := by
  have hv : qVar [82, 100, 118] = 324 := by
    norm_num [qVar, qMean]
  rw [stdReal, hv, show ((324 : ℚ) : ℝ) = 18 ^ 2 by norm_num,
    Real.sqrt_sq (by norm_num)]

/-- C4 counterexample: on the series [82, 100, 118] (sd exactly 18), `COGI`
returns 100 (sd score 100), not the claim's interpolated value 97.5. -/
theorem COGI_ne_claimed_at_sd_18 :
    COGI [82, 100, 118] ≠ claimedCOGI [82, 100, 118] := by
  have h1 : percentTimeInRange [82, 100, 118] 70 180 = some 100 := by
    norm_num [percentTimeInRange, List.filter]
  have h2 : percentTimeInRange [82, 100, 118] 0 70 = some 0 := by
    norm_num [percentTimeInRange, List.filter]
  unfold COGI claimedCOGI claimedSdScore
  rw [h1, h2, stdReal_18_series]
  norm_num

/-- C4A (amended): for every series with defined time-in-range values, `COGI`
equals `0.5·TIR + 0.35·(1 − min(TBR,15)/15)·100 + 0.15·sd_score` where
`sd_score` is 100 for sd ≤ 18 (boundary included), 0 for sd ≥ 108, and
`(1 − sd/108)·100` strictly between. -/
theorem COGI_formula (l : List ℚ) (tir tbr : ℚ)
    (h1 : percentTimeInRange l 70 180 = some tir)
    (h2 : percentTimeInRange l 0 70 = some tbr) :
    COGI l = some (0.5 * (tir : ℝ) + 0.35 * ((1 - min (tbr : ℝ) 15 / 15) * 100)
      + 0.15 * specSdScore (stdReal l)) := by
  unfold COGI
  rw [h1, h2]
  have hsd : (if 108 ≤ stdReal l then (0 : ℝ)
      else if 18 < stdReal l then (1 - stdReal l / 108) * 100 else 100)
      = specSdScore (stdReal l) := by
    unfold specSdScore
    split_ifs <;> first | rfl | linarith
  simp only [Option.some_bind, Option.map_some']
  rw [hsd]

/-- Witness for `COGI_formula` at the concrete series [82, 100, 118]. -/
theorem COGI_formula_witness :
    percentTimeInRange [82, 100, 118] 70 180 = some 100 ∧
      percentTimeInRange [82, 100, 118] 0 70 = some 0 ∧
      COGI [82, 100, 118] = some (0.5 * ((100 : ℚ) : ℝ)
        + 0.35 * ((1 - min (((0 : ℚ) : ℝ)) 15 / 15) * 100)
        + 0.15 * specSdScore (stdReal [82, 100, 118])) := by
  have h1 : percentTimeInRange [82, 100, 118] 70 180 = some 100 := by
    norm_num [percentTimeInRange, List.filter]
  have h2 : percentTimeInRange [82, 100, 118] 0 70 = some 0 := by
    norm_num [percentTimeInRange, List.filter]
  exact ⟨h1, h2, COGI_formula [82, 100, 118] 100 0 h1 h2⟩

/-- Episode direction: hypo (`g ≤ threshold`) or hyper (`g ≥ threshold`). -/
inductive Dir
  | hypo
  | hyper
deriving DecidableEq, Repr

/-- The threshold mask of `_episodes_helper` (events.py line 189):
`g ≤ threshold` for hypo, `g ≥ threshold` for hyper. -/
def inEpisode (dir : Dir) (thr : ℚ) (s : Sample) : Bool :=
  match dir with
  | .hypo => decide (s.g ≤ thr)
  | .hyper => decide (thr ≤ s.g)

/-- The look-ahead recovery test (events.py line 212): `g ≥ threshold` counts
as recovered for hypo episodes, `g ≤ threshold` for hyper episodes. -/
def recoveredEp (dir : Dir) (thr g : ℚ) : Bool :=
  match dir with
  | .hypo => decide (thr ≤ g)
  | .hyper => decide (g ≤ thr)

/-- Interval-extractor boundary indices (events.py line 193): positions of
the filtered rows whose time gap to the previous row differs from the
sampling interval (position 0 has gap NaN and is always a boundary).  The
source appends a trailing `-1` sentinel; here the sentinel is implicit in
the one-element case of `epGo`. -/
def edgeIdxs (rows : List Sample) (itv : ℚ) : List ℕ :=
  (List.range rows.length).filter fun i =>
    decide (i = 0) || decide ((rows.getD i default).t - (rows.getD (i - 1) default).t ≠ itv)

/-- `math.ceil(end_length / interval)` (events.py line 208). -/
def endCounts (endL itv : ℚ) : ℕ := (Int.ceil (endL / itv)).toNat

/-- The look-ahead window test (events.py lines 210-213): take the
`ceil(end_length/interval)` samples positionally after the row of `endTime`
in the full trace (fewer near the trace end); the episode has resolved iff
every one of them is on the normal side of the threshold. -/
def lookaheadClean (data : List Sample) (dir : Dir) (thr endL itv endTime : ℚ) : Bool :=
  let endIdx := data.findIdx fun s => decide (s.t = endTime)
  ((data.drop (endIdx + 1)).take (endCounts endL itv)).all fun s => recoveredEp dir thr s.g

/-- An episode event (events.py line 218): anchor `time`, minutes `before` /
`after`, direction and severity level (the TYPE string
`"<dir> level <level> episode"`), and the start/end timestamps that the
DESCRIPTION string records. -/
structure EpEvent where
  time : ℚ
  before : ℚ
  after : ℚ
  dir : Dir
  level : ℕ
  startT : ℚ
  endT : ℚ
deriving DecidableEq, Repr

/-- Episode event construction at emission (events.py lines 217-219):
`before = 0`, `after = episode_length`, anchored at the start time. -/
def mkEp (dir : Dir) (level : ℕ) (s en : Sample) : EpEvent :=
  ⟨s.t, 0, en.t - s.t, dir, level, s.t, en.t⟩

/-- The merge/emit loop of `_episodes_helper` (events.py lines 196-222),
as recursion on the list of interval-start boundaries.  `[e]` is the
source's pair `(e, -1 sentinel)`: the final interval, ending at the last
filtered row and exempt from the look-ahead check.  `e :: f :: rest` is the
pair `(e, f)`: the interval is rows `e .. f-1`; if shorter than
`min_length` it is discarded, else if the look-ahead window after its end
has not recovered the next boundary is popped (`edges.pop(index+1)`,
i.e. recursion on `e :: rest`), else the event is emitted. -/
def epGo (data : List Sample) (dir : Dir) (thr : ℚ) (level : ℕ)
    (minL endL itv : ℚ) (rows : List Sample) : List ℕ → List EpEvent
  | [] => []
  | [e] =>
    let s := rows.getD e default
    let en := rows.getD (rows.length - 1) default
    if minL ≤ en.t - s.t then [mkEp dir level s en] else []
  | e :: f :: rest =>
    let s := rows.getD e default
    let en := rows.getD (f - 1) default
    if en.t - s.t < minL then epGo data dir thr level minL endL itv rows (f :: rest)
    else if lookaheadClean data dir thr endL itv en.t then
      mkEp dir level s en :: epGo data dir thr level minL endL itv rows (f :: rest)
    else epGo data dir thr level minL endL itv rows (e :: rest)
termination_by es => es.length

/-- `_episodes_helper` for one patient, direction, threshold and level. -/
def episodesHelper (data : List Sample) (dir : Dir) (thr : ℚ) (level : ℕ)
    (minL endL itv : ℚ) : List EpEvent :=
  let rows := data.filter (inEpisode dir thr)
  epGo data dir thr level minL endL itv rows (edgeIdxs rows itv)

/-- Every event `epGo` emits has `before = 0`, anchor = start time,
`after` = end − start, and `after ≥ min_length`; by induction over the
merge/emit loop. -/
theorem epGo_shape (data : List Sample) (dir : Dir) (thr : ℚ) (level : ℕ)
    (minL endL itv : ℚ) (rows : List Sample) :
    ∀ es : List ℕ, ∀ ev ∈ epGo data dir thr level minL endL itv rows es,
      ev.before = 0 ∧ ev.time = ev.startT ∧ ev.after = ev.endT - ev.startT ∧
        minL ≤ ev.after := by
  have key : ∀ n (es : List ℕ), es.length ≤ n →
      ∀ ev ∈ epGo data dir thr level minL endL itv rows es,
        ev.before = 0 ∧ ev.time = ev.startT ∧ ev.after = ev.endT - ev.startT ∧
          minL ≤ ev.after := by
    intro n
    induction n with
    | zero =>
      intro es hlen ev hev
      have : es = [] := List.length_eq_zero.mp (Nat.le_zero.mp hlen)
      subst this
      simp [epGo] at hev
    | succ n ih =>
      intro es hlen ev hev
      match es with
      | [] => simp [epGo] at hev
      | [e] =>
        simp only [epGo] at hev
        split at hev
        · next hcond =>
          rw [List.mem_singleton] at hev
          subst hev
          exact ⟨rfl, rfl, rfl, hcond⟩
        · simp at hev
      | e :: f :: rest =>
        simp only [epGo] at hev
        split at hev
        · exact ih (f :: rest) (by simpa using Nat.le_of_succ_le_succ hlen) ev hev
        · split at hev
          · rw [List.mem_cons] at hev
            rcases hev with hev | hev
            · subst hev
              refine ⟨rfl, rfl, rfl, ?_⟩
              next hcond _ => exact not_lt.mp hcond
            · exact ih (f :: rest) (by simpa using Nat.le_of_succ_le_succ hlen) ev hev
          · exact ih (e :: rest) (by simpa using Nat.le_of_succ_le_succ hlen) ev hev
  intro es
  exact key es.length es le_rfl

/-- C6: every episode event emitted by `_episodes_helper` has `before = 0`,
`after` equal to the episode duration (end timestamp − start timestamp of the
possibly merged interval), anchor timestamp equal to the interval's first
sample timestamp, duration at least `min_length`, and hence
`after − before = end − start`. -/
theorem episode_event_invariants (data : List Sample) (dir : Dir) (thr : ℚ)
    (level : ℕ) (minL endL itv : ℚ) (ev : EpEvent)
    (h : ev ∈ episodesHelper data dir thr level minL endL itv) :
    ev.before = 0 ∧ ev.time = ev.startT ∧ ev.after = ev.endT - ev.startT ∧
      minL ≤ ev.after ∧ ev.after - ev.before = ev.endT - ev.startT := by
  obtain ⟨h1, h2, h3, h4⟩ := epGo_shape data dir thr level minL endL itv
    (data.filter (inEpisode dir thr)) (edgeIdxs (data.filter (inEpisode dir thr)) itv) ev h
  exact ⟨h1, h2, h3, h4, by rw [h1, h3]; ring⟩

/-- A 25-minute trace below the hypo threshold for its first four samples. -/
def epTrace : List Sample := [⟨0, 60⟩, ⟨5, 60⟩, ⟨10, 60⟩, ⟨15, 60⟩, ⟨20, 100⟩]

/-- Witness for `episode_event_invariants`: the level-1 hypo episode detected
on `epTrace` (threshold 70, min_length = end_length = 15, interval 5). -/
theorem episode_event_invariants_witness :
    (⟨0, 0, 15, .hypo, 1, 0, 15⟩ : EpEvent) ∈ episodesHelper epTrace .hypo 70 1 15 15 5 ∧
      ((0 : ℚ) = 0 ∧ (0 : ℚ) = 0 ∧ (15 : ℚ) = 15 - 0 ∧ (15 : ℚ) ≤ 15 ∧
        (15 : ℚ) - 0 = 15 - 0) := by
  have hmem : (⟨0, 0, 15, .hypo, 1, 0, 15⟩ : EpEvent) ∈
      episodesHelper epTrace .hypo 70 1 15 15 5 := by
    norm_num [episodesHelper, epTrace, inEpisode, edgeIdxs, List.range_succ,
      epGo, mkEp, List.filter]
  exact ⟨hmem, episode_event_invariants epTrace .hypo 70 1 15 15 5 _ hmem⟩

/-- A trace that violates every input-contract rule at once: timestamps
0, 10, 5 are non-monotonic and the gaps (10, −5) never equal the sampling
interval 5. -/
def invalidTrace : List Sample := [⟨0, 60⟩, ⟨10, 60⟩, ⟨5, 60⟩]

/-- C8 counterexample: on `invalidTrace` (non-monotonic, irregularly sampled)
`_episodes_helper` does not fail fast with an error — it runs the
interval/merge loop on the malformed input as-is and returns an ordinary
episode list (here one merged hypo episode). -/
theorem episodesHelper_no_error_on_invalid_trace :
    episodesHelper invalidTrace .hypo 70 1 0 15 5 = [⟨0, 0, 5, .hypo, 1, 0, 5⟩] := by
  norm_num [episodesHelper, invalidTrace, inEpisode, edgeIdxs, List.range_succ,
    epGo, lookaheadClean, recoveredEp, endCounts, List.findIdx, List.findIdx.go,
    mkEp, List.filter, List.take, Int.toNat_ofNat, List.forall_mem_cons]

/-- Outlier predicate of `get_excursions` (events.py lines 298-308):
`g ≥ mean + z·sd ∨ g ≤ mean − z·sd`, encoded with rational squared
comparisons (`sd = √v`); `isOutlier_iff_real` proves the encoding equal to
the source's comparison for `z ≥ 0`. -/
def isOutlier (m v z g : ℚ) : Bool :=
  (decide (m ≤ g) && decide (z ^ 2 * v ≤ (g - m) ^ 2)) ||
  (decide (g ≤ m) && decide (z ^ 2 * v ≤ (m - g) ^ 2))

/-- Excursion recovery against the upper bound (events.py line 333,
hyper case): `g ≤ mean + z·sd`, in squared encoding. -/
def recoveredUpper (m v z g : ℚ) : Bool :=
  decide (g ≤ m) || decide ((g - m) ^ 2 ≤ z ^ 2 * v)

/-- Excursion recovery against the lower bound (events.py line 333,
hypo case): `g ≥ mean − z·sd`, in squared encoding. -/
def recoveredLower (m v z g : ℚ) : Bool :=
  decide (m ≤ g) || decide ((m - g) ^ 2 ≤ z ^ 2 * v)

/-- `√v < e ↔ v < e²` for nonnegative `e` and `v`: the encoding used for
MAGE's `excursion > std` test. -/
theorem sqrt_lt_iff_sq (e v : ℝ) (he : 0 ≤ e) (hv : 0 ≤ v) :
    Real.sqrt v < e ↔ v < e ^ 2 := by
  rcases he.eq_or_lt with h | h
  · subst h
    simp [not_lt.mpr (Real.sqrt_nonneg v), not_lt.mpr hv]
  · exact Real.sqrt_lt' h

/-- `z·√v = √(z²·v)` for `z ≥ 0`. -/
theorem mul_sqrt_eq (z v : ℝ) (hz : 0 ≤ z) (hv : 0 ≤ v) :
    z * Real.sqrt v = Real.sqrt (z ^ 2 * v) := by
  rw [Real.sqrt_mul (sq_nonneg z) v, Real.sqrt_sq hz]

/-- The squared `isOutlier` encoding agrees with the source's
`g ≥ mean + z·sd ∨ g ≤ mean − z·sd` for `z ≥ 0`, `v ≥ 0`. -/
theorem isOutlier_iff_real (m v z g : ℚ) (hz : 0 ≤ z) (hv : 0 ≤ v) :
    isOutlier m v z g = true ↔
      ((m : ℝ) + z * Real.sqrt v ≤ g ∨ (g : ℝ) ≤ m - z * Real.sqrt v) := by
  have hz' : (0 : ℝ) ≤ ((z : ℚ) : ℝ) := by exact_mod_cast hz
  have hv' : (0 : ℝ) ≤ ((v : ℚ) : ℝ) := by exact_mod_cast hv
  have hs : ((z : ℚ) : ℝ) * Real.sqrt v = Real.sqrt (((z : ℚ) : ℝ) ^ 2 * v) :=
    mul_sqrt_eq z v hz' hv'
  have key : ∀ d : ℝ, (Real.sqrt (((z : ℚ) : ℝ) ^ 2 * v) ≤ d) ↔
      (0 ≤ d ∧ ((z : ℚ) : ℝ) ^ 2 * v ≤ d ^ 2) :=
    fun d => Real.sqrt_le_iff
  have hout : isOutlier m v z g = true ↔
      ((m ≤ g ∧ z ^ 2 * v ≤ (g - m) ^ 2) ∨ (g ≤ m ∧ z ^ 2 * v ≤ (m - g) ^ 2)) := by
    simp [isOutlier]
  rw [hout]
  constructor
  · rintro (⟨hm, hsq⟩ | ⟨hm, hsq⟩)
    · left
      have h2 : Real.sqrt (((z : ℚ) : ℝ) ^ 2 * v) ≤ ((g : ℚ) : ℝ) - m :=
        (key _).mpr ⟨by exact_mod_cast sub_nonneg.mpr hm, by exact_mod_cast hsq⟩
      rw [← hs] at h2
      linarith
    · right
      have h2 : Real.sqrt (((z : ℚ) : ℝ) ^ 2 * v) ≤ ((m : ℚ) : ℝ) - g :=
        (key _).mpr ⟨by exact_mod_cast sub_nonneg.mpr hm, by exact_mod_cast hsq⟩
      rw [← hs] at h2
      linarith
  · rintro (h1 | h1)
    · left
      have h2 : Real.sqrt (((z : ℚ) : ℝ) ^ 2 * v) ≤ ((g : ℚ) : ℝ) - m := by
        rw [← hs]
        linarith
      obtain ⟨hd0, hdsq⟩ := (key _).mp h2
      exact ⟨by exact_mod_cast sub_nonneg.mp hd0, by exact_mod_cast hdsq⟩
    · right
      have h2 : Real.sqrt (((z : ℚ) : ℝ) ^ 2 * v) ≤ ((m : ℚ) : ℝ) - g := by
        rw [← hs]
        linarith
      obtain ⟨hd0, hdsq⟩ := (key _).mp h2
      exact ⟨by exact_mod_cast sub_nonneg.mp hd0, by exact_mod_cast hdsq⟩

/-- Times of local peaks (events.py line 303): samples strictly greater than
both neighbours; first and last samples never qualify (NaN comparisons). -/
def peakTimes (data : List Sample) : List ℚ :=
  ((List.range data.length).filter fun i =>
    decide (1 ≤ i) && decide (i + 1 < data.length) &&
    decide ((data.getD (i - 1) default).g < (data.getD i default).g) &&
    decide ((data.getD (i + 1) default).g < (data.getD i default).g)).map
    fun i => (data.getD i default).t

/-- Times of local nadirs (events.py line 305): samples strictly less than
both neighbours. -/
def nadirTimes (data : List Sample) : List ℚ :=
  ((List.range data.length).filter fun i =>
    decide (1 ≤ i) && decide (i + 1 < data.length) &&
    decide ((data.getD i default).g < (data.getD (i - 1) default).g) &&
    decide ((data.getD i default).g < (data.getD (i + 1) default).g)).map
    fun i => (data.getD i default).t

/-- `Series.idxmax` over a slice: the sample holding the maximum glucose,
first occurrence on ties. -/
def argmaxSample (l : List Sample) : Sample :=
  l.foldl (fun best s => if best.g < s.g then s else best) (l.headD default)

/-- `Series.idxmin` over a slice: the sample holding the minimum glucose,
first occurrence on ties. -/
def argminSample (l : List Sample) : Sample :=
  l.foldl (fun best s => if s.g < best.g then s else best) (l.headD default)

/-- Excursion boundary snapping for the start (events.py lines 344-345):
unless the interval starts at the very first trace sample, move the start to
the latest extremum time at or before it, when one exists. -/
def snapStart (data : List Sample) (extrema : List ℚ) (rawStart : ℚ) : ℚ :=
  if data.findIdx (fun s => decide (s.t = rawStart)) = 0 then rawStart
  else
    let c := extrema.filter fun p => decide (p ≤ rawStart)
    if c.isEmpty then rawStart else c.getLastD rawStart

/-- Excursion boundary snapping for the end (events.py lines 346-347):
unless the interval ends at the trace's last sample, move the end to the
earliest extremum time at or after it, when one exists. -/
def snapEnd (data : List Sample) (extrema : List ℚ) (rawEnd : ℚ) : ℚ :=
  if data.findIdx (fun s => decide (s.t = rawEnd)) = data.length - 1 then rawEnd
  else
    let c := extrema.filter fun p => decide (rawEnd ≤ p)
    if c.isEmpty then rawEnd else c.headD rawEnd

/-- Excursion look-ahead test (events.py lines 328-336): the window after the
interval end must be back inside the `upper` (hyper) / `lower` (hypo)
bound. -/
def lookaheadCleanExc (data : List Sample) (m v z : ℚ) (dir : Dir)
    (endL itv endTime : ℚ) : Bool :=
  let li := data.findIdx fun s => decide (s.t = endTime)
  ((data.drop (li + 1)).take (endCounts endL itv)).all fun s =>
    match dir with
    | .hyper => recoveredUpper m v z s.g
    | .hypo => recoveredLower m v z s.g

/-- An excursion event (events.py lines 350-352).  `startT`/`endT` are the
snapped boundaries the DESCRIPTION string records; `rawStartT`/`rawEndT`
additionally retain the first/last outlier timestamps of the merged interval
(ghost data used only to state boundary properties). -/
structure ExcEvent where
  time : ℚ
  before : ℚ
  after : ℚ
  dir : Dir
  startT : ℚ
  endT : ℚ
  rawStartT : ℚ
  rawEndT : ℚ
deriving DecidableEq, Repr

/-- Excursion event construction at emission (events.py lines 338-352):
anchor at the interior extremum of the outlier slice `[e, lastPoint)`
(`idxmax` for hyper, `idxmin` for hypo), then snap boundaries outward using
peaks for hypo and nadirs for hyper. -/
def mkExc (data : List Sample) (rows : List Sample) (pks nds : List ℚ)
    (dir : Dir) (e : ℕ) (lastPoint : Option ℕ) (s en : Sample) : ExcEvent :=
  let seg := match lastPoint with
    | some f => (rows.drop e).take (f - e)
    | none => rows.drop e
  let anchor := match dir with
    | .hyper => argmaxSample seg
    | .hypo => argminSample seg
  let extrema := match dir with
    | .hypo => pks
    | .hyper => nds
  let st := snapStart data extrema s.t
  let et := snapEnd data extrema en.t
  ⟨anchor.t, anchor.t - st, et - anchor.t, dir, st, et, s.t, en.t⟩

/-- The merge/emit loop of `get_excursions` (events.py lines 317-355), in the
same boundary-list form as `epGo`.  The interval's direction is re-derived
each iteration from its first outlier sample (`> mean` is hyper). -/
def excGo (data : List Sample) (m v z minL endL itv : ℚ)
    (rows : List Sample) (pks nds : List ℚ) : List ℕ → List ExcEvent
  | [] => []
  | [e] =>
    let s := rows.getD e default
    let en := rows.getD (rows.length - 1) default
    let dir : Dir := if m < s.g then .hyper else .hypo
    if minL ≤ en.t - s.t then [mkExc data rows pks nds dir e none s en] else []
  | e :: f :: rest =>
    let s := rows.getD e default
    let en := rows.getD (f - 1) default
    let dir : Dir := if m < s.g then .hyper else .hypo
    if en.t - s.t < minL then excGo data m v z minL endL itv rows pks nds (f :: rest)
    else if lookaheadCleanExc data m v z dir endL itv en.t then
      mkExc data rows pks nds dir e (some f) s en ::
        excGo data m v z minL endL itv rows pks nds (f :: rest)
    else excGo data m v z minL endL itv rows pks nds (e :: rest)
termination_by es => es.length

/-- `get_excursions` (events.py lines 271-357) for a single patient's trace:
outliers are samples at least `z` standard deviations from the trace mean;
contiguous outlier runs are merged/filtered like episodes, then anchored and
snapped. -/
def getExcursions (data : List Sample) (z minL endL itv : ℚ) : List ExcEvent :=
  let gl := data.map Sample.g
  let m := qMean gl
  let v := qVar gl
  let rows := data.filter fun s => isOutlier m v z s.g
  excGo data m v z minL endL itv rows (peakTimes data) (nadirTimes data)
    (edgeIdxs rows itv)

/-- Fallible positional access (`Series.iloc[j]` / `ndarray[j]`): Python's
`IndexError` becomes `Except.error`. -/
def getE {α : Type} (l : List α) (j : ℕ) : Except String α :=
  match l.get? j with
  | some x => .ok x
  | none => .error "index out of range"

/-- Centered rolling mean of window 9 with `min_periods = 1`
(features.py line 162): the mean over rows `max(0, i−4) .. min(n−1, i+4)`. -/
def maShort (l : List ℚ) (i : ℕ) : ℚ :=
  qMean ((l.drop (i - 4)).take (min (l.length - 1) (i + 4) + 1 - (i - 4)))

/-- `np.sign` of the smoothed series' successive differences with zeros
replaced by −1 (features.py lines 164-165); `none` is the NaN at
position 0. -/
def maSign (l : List ℚ) (i : ℕ) : Option ℤ :=
  if i = 0 then none
  else
    let d := maShort l i - maShort l (i - 1)
    if d < 0 then some (-1) else if d = 0 then some (-1) else some 1

/-- `np.where(np.diff(signs))[0]` (features.py line 166): positions where
consecutive signs differ; a NaN difference is truthy, so position 0 (whose
left sign is NaN) always qualifies. -/
def mageCrossings (l : List ℚ) : List ℕ :=
  (List.range (l.length - 1)).filter fun i =>
    match maSign l i, maSign l (i + 1) with
    | some a, some b => decide (a ≠ b)
    | _, _ => true

/-- Maximum of a glucose segment (`Series.max`), `headD 0` on empty
(unused: segments between crossings are nonempty). -/
def segMax (seg : List ℚ) : ℚ := seg.foldl max (seg.headD 0)

/-- Minimum of a glucose segment (`Series.min`). -/
def segMin (seg : List ℚ) : ℚ := seg.foldl min (seg.headD 0)

/-- `features.MAGE` (features.py lines 160-188).  `Except.error` models the
`IndexError` Python raises while building the (otherwise unused) `peaks` and
`valleys` lists; `.ok none` models the NaN returned when no excursion
exceeds the standard deviation.  The `excursion > std` test is encoded as
`var < excursion²` (see `sqrt_lt_iff_sq`; `excursion = max − min ≥ 0`). -/
def MAGE (l : List ℚ) : Except String (Option ℚ) := do
  let c := mageCrossings l
  let g0 ← getE l 0
  let g1 ← getE l 1
  let ps : ℕ := if g0 < g1 then 0 else 1
  let vs : ℕ := 1 - ps
  let _pks ← ((List.range ((c.length + vs) / 2)).drop ps).mapM fun index => do
    let i1 ← getE c (2 * index + ps)
    let i2 ← getE c (2 * index + 1 + ps)
    let a ← getE l i1
    let b ← getE l i2
    pure (max a b)
  let _vls ← ((List.range ((c.length + ps) / 2)).drop vs).mapM fun index => do
    let i1 ← getE c (2 * index + vs)
    let i2 ← getE c (2 * index + 1 + vs)
    let a ← getE l i1
    let b ← getE l i2
    pure (min a b)
  let excs := (List.range (c.length - 1)).filterMap fun i =>
    let seg := (l.drop (c.getD i 0)).take (c.getD (i + 1) 0 - c.getD i 0)
    let exc := segMax seg - segMin seg
    if qVar l < exc ^ 2 then some exc else none
  pure (if excs.isEmpty then none else some (qMean excs))

/-- The flat four-sample trace (20 minutes at 100 mg/dL, 5-minute interval). -/
def flatTrace : List Sample := [⟨0, 100⟩, ⟨5, 100⟩, ⟨10, 100⟩, ⟨15, 100⟩]

/-- C1: on a perfectly flat trace (four samples of 100 mg/dL, zero variance)
`MAGE` does not return NaN — it raises an IndexError
(`crossings` is `[0]` and the valleys comprehension reads `crossings[1]`)
— and `get_excursions` does not emit zero events: with sd = 0 both outlier
bounds collapse to the mean so every sample is an outlier, and one
whole-trace hypo excursion is emitted (duration 15 ≥ min_length 15).
Neither computation divides by zero. -/
theorem flat_trace_mage_and_excursions :
    MAGE [100, 100, 100, 100] = .error "index out of range" ∧
      getExcursions flatTrace 2 15 15 5 = [⟨0, 0, 15, .hypo, 0, 15, 0, 15⟩] := by
  constructor
  · have hc : mageCrossings [100, 100, 100, 100] = [0] := by
      norm_num [mageCrossings, maSign, maShort, qMean, List.range_succ, List.filter]
    rw [MAGE, hc]
    norm_num [getE, bind, Except.bind, List.mapM, List.mapM.loop, List.range_succ,
      pure, Except.pure]
  · norm_num [getExcursions, flatTrace, qMean, qVar, isOutlier, edgeIdxs, excGo, mkExc,
      argminSample, argmaxSample, peakTimes, nadirTimes, snapStart, snapEnd,
      List.findIdx, List.findIdx.go, List.range_succ, List.filter]

/-- A fold that always keeps either the accumulator or the new element stays
inside the list (or returns the initial value). -/
theorem foldl_choice_mem (f : Sample → Sample → Sample)
    (hf : ∀ a s, f a s = a ∨ f a s = s) :
    ∀ (l : List Sample) (init : Sample), l.foldl f init = init ∨ l.foldl f init ∈ l := by
  intro l
  induction l with
  | nil => intro init; left; rfl
  | cons a t ih =>
    intro init
    simp only [List.foldl_cons]
    rcases ih (f init a) with h | h
    · rcases hf init a with h2 | h2
      · rw [h, h2]; left; rfl
      · rw [h, h2]; right; exact List.mem_cons_self a t
    · right; exact List.mem_cons_of_mem a h

/-- `idxmax` lands on a sample of the slice (nonempty case). -/
theorem argmaxSample_mem (l : List Sample) (h : l ≠ []) : argmaxSample l ∈ l := by
  match l, h with
  | a :: t, _ =>
    unfold argmaxSample
    have := foldl_choice_mem (fun best s => if best.g < s.g then s else best)
      (fun b s => by by_cases hb : b.g < s.g <;> simp [hb]) (a :: t) ((a :: t).headD default)
    rcases this with h1 | h1
    · rw [h1]; exact List.mem_cons_self a t
    · exact h1

/-- `idxmin` lands on a sample of the slice (nonempty case). -/
theorem argminSample_mem (l : List Sample) (h : l ≠ []) : argminSample l ∈ l := by
  match l, h with
  | a :: t, _ =>
    unfold argminSample
    have := foldl_choice_mem (fun best s => if s.g < best.g then s else best)
      (fun b s => by by_cases hb : s.g < b.g <;> simp [hb]) (a :: t) ((a :: t).headD default)
    rcases this with h1 | h1
    · rw [h1]; exact List.mem_cons_self a t
    · exact h1

/-- The boundary list is strictly increasing. -/
theorem edgeIdxs_sorted (rows : List Sample) (itv : ℚ) :
    (edgeIdxs rows itv).Pairwise (· < ·) :=
  (List.pairwise_lt_range _).filter _

/-- Every boundary is a valid row position. -/
theorem edgeIdxs_bound (rows : List Sample) (itv : ℚ) :
    ∀ x ∈ edgeIdxs rows itv, x < rows.length := by
  intro x hx
  exact List.mem_range.mp (List.mem_of_mem_filter hx)

/-- The anchor of every event `excGo` emits carries the timestamp of one of
the outlier rows: the `idxmax`/`idxmin` slice ranges over outlier rows
only. -/
theorem excGo_anchor_mem (data : List Sample) (m v z minL endL itv : ℚ)
    (rows : List Sample) (pks nds : List ℚ) :
    ∀ es : List ℕ, es.Pairwise (· < ·) → (∀ x ∈ es, x < rows.length) →
      ∀ ev ∈ excGo data m v z minL endL itv rows pks nds es,
        ∃ s ∈ rows, s.t = ev.time := by
  have key : ∀ n (es : List ℕ), es.length ≤ n → es.Pairwise (· < ·) →
      (∀ x ∈ es, x < rows.length) →
      ∀ ev ∈ excGo data m v z minL endL itv rows pks nds es,
        ∃ s ∈ rows, s.t = ev.time := by
    intro n
    induction n with
    | zero =>
      intro es hlen _ _ ev hev
      have : es = [] := List.length_eq_zero.mp (Nat.le_zero.mp hlen)
      subst this
      simp [excGo] at hev
    | succ n ih =>
      intro es hlen hsort hbound ev hev
      match es with
      | [] => simp [excGo] at hev
      | [e] =>
        simp only [excGo] at hev
        split at hev
        · rw [List.mem_singleton] at hev
          subst hev
          have he : e < rows.length := hbound e (List.mem_singleton.mpr rfl)
          have hne : rows.drop e ≠ [] := by
            intro hnil
            have := List.drop_eq_nil_iff_le.mp hnil
            omega
          simp only [mkExc]
          rcases hdir : (if m < (rows.getD e default).g then Dir.hyper else Dir.hypo)
            with _ | _
          · refine ⟨argminSample (rows.drop e), List.drop_subset e rows
              (argminSample_mem _ hne), ?_⟩
            simp [hdir]
          · refine ⟨argmaxSample (rows.drop e), List.drop_subset e rows
              (argmaxSample_mem _ hne), ?_⟩
            simp [hdir]
        · simp at hev
      | e :: f :: rest =>
        have hef : e < f := (List.pairwise_cons.mp hsort).1 f (List.mem_cons_self f rest)
        have hsort2 : (f :: rest).Pairwise (· < ·) := (List.pairwise_cons.mp hsort).2
        have hsorte : (e :: rest).Pairwise (· < ·) := by
          rw [List.pairwise_cons]
          refine ⟨fun x hx => (List.pairwise_cons.mp hsort).1 x (List.mem_cons_of_mem f hx),
            (List.pairwise_cons.mp hsort2).2⟩
        have hbound2 : ∀ x ∈ f :: rest, x < rows.length :=
          fun x hx => hbound x (List.mem_cons_of_mem e hx)
        have hbounde : ∀ x ∈ e :: rest, x < rows.length := by
          intro x hx
          rcases List.mem_cons.mp hx with h | h
          · exact hbound x (h ▸ List.mem_cons_self e (f :: rest))
          · exact hbound x (List.mem_cons_of_mem e (List.mem_cons_of_mem f h))
        have hlen2 : (f :: rest).length ≤ n := by simpa using Nat.le_of_succ_le_succ hlen
        have hlene : (e :: rest).length ≤ n := by simpa using Nat.le_of_succ_le_succ hlen
        have he : e < rows.length := hbound e (List.mem_cons_self e (f :: rest))
        have hne : (rows.drop e).take (f - e) ≠ [] := by
          intro hnil
          rcases List.take_eq_nil_iff.mp hnil with h | h
          · omega
          · have := List.drop_eq_nil_iff_le.mp h
            omega
        have hsub : ∀ s ∈ (rows.drop e).take (f - e), s ∈ rows :=
          fun s hs => List.drop_subset e rows (List.take_subset _ _ hs)
        simp only [excGo] at hev
        split at hev
        · exact ih (f :: rest) hlen2 hsort2 hbound2 ev hev
        · split at hev
          · -- hyper interval
            split at hev
            · rw [List.mem_cons] at hev
              rcases hev with hev | hev
              · subst hev
                exact ⟨argmaxSample _, hsub _ (argmaxSample_mem _ hne), rfl⟩
              · exact ih (f :: rest) hlen2 hsort2 hbound2 ev hev
            · exact ih (e :: rest) hlene hsorte hbounde ev hev
          · -- hypo interval
            split at hev
            · rw [List.mem_cons] at hev
              rcases hev with hev | hev
              · subst hev
                exact ⟨argminSample _, hsub _ (argminSample_mem _ hne), rfl⟩
              · exact ih (f :: rest) hlen2 hsort2 hbound2 ev hev
            · exact ih (e :: rest) hlene hsorte hbounde ev hev
  intro es
  exact key es.length es le_rfl

/-- C10: the glucose sample at every emitted excursion's anchor timestamp is
itself an outlier (`g ≥ mean + z·sd` or `g ≤ mean − z·sd`, in the squared
encoding tied to the source's comparison by `isOutlier_iff_real`): the
anchor is chosen among the interval's outlier rows only. -/
theorem excursion_anchor_is_outlier (data : List Sample) (z minL endL itv : ℚ)
    (ev : ExcEvent) (h : ev ∈ getExcursions data z minL endL itv) :
    ∃ s ∈ data, s.t = ev.time ∧
      isOutlier (qMean (data.map Sample.g)) (qVar (data.map Sample.g)) z s.g = true := by
  have := excGo_anchor_mem data (qMean (data.map Sample.g)) (qVar (data.map Sample.g))
    z minL endL itv
    (data.filter fun s => isOutlier (qMean (data.map Sample.g)) (qVar (data.map Sample.g)) z s.g)
    (peakTimes data) (nadirTimes data)
    (edgeIdxs (data.filter fun s =>
      isOutlier (qMean (data.map Sample.g)) (qVar (data.map Sample.g)) z s.g) itv)
    (edgeIdxs_sorted _ itv) (edgeIdxs_bound _ itv) ev h
  obtain ⟨s, hs, hst⟩ := this
  exact ⟨s, List.mem_of_mem_filter hs, hst, by simpa using List.of_mem_filter hs⟩

/-- Witness for `excursion_anchor_is_outlier`: the flat-trace excursion. -/
theorem excursion_anchor_is_outlier_witness :
    (⟨0, 0, 15, .hypo, 0, 15, 0, 15⟩ : ExcEvent) ∈ getExcursions flatTrace 2 15 15 5 ∧
      ∃ s ∈ flatTrace, s.t = (0 : ℚ) ∧
        isOutlier (qMean (flatTrace.map Sample.g)) (qVar (flatTrace.map Sample.g)) 2 s.g
          = true := by
  have hmem : (⟨0, 0, 15, .hypo, 0, 15, 0, 15⟩ : ExcEvent) ∈
      getExcursions flatTrace 2 15 15 5 := by
    norm_num [getExcursions, flatTrace, qMean, qVar, isOutlier, edgeIdxs, excGo, mkExc,
      argminSample, argmaxSample, peakTimes, nadirTimes, snapStart, snapEnd,
      List.findIdx, List.findIdx.go, List.range_succ, List.filter]
  exact ⟨hmem, excursion_anchor_is_outlier flatTrace 2 15 15 5 _ hmem⟩

/-- If `a` is below `d` and every element of `t`, then `a ≤ t.getLastD d`. -/
theorem le_getLastD_of_le : ∀ (t : List ℚ) (d a : ℚ), a ≤ d → (∀ x ∈ t, a ≤ x) →
    a ≤ t.getLastD d := by
  intro t
  induction t with
  | nil => intro d a had _; simpa [List.getLastD] using had
  | cons b t2 ih =>
    intro d a had hall
    rw [List.getLastD_cons]
    exact ih b a (hall b (List.mem_cons_self b t2)) fun x hx =>
      hall x (List.mem_cons_of_mem b hx)

/-- In a strictly sorted list the defaulted last element dominates every
member. -/
theorem sorted_le_getLastD : ∀ (c : List ℚ), c.Pairwise (· < ·) → ∀ (d q : ℚ), q ∈ c →
    q ≤ c.getLastD d := by
  intro c
  induction c with
  | nil => intro _ d q hq; simp at hq
  | cons a t ih =>
    intro hc d q hq
    rw [List.getLastD_cons]
    rcases List.mem_cons.mp hq with rfl | hq2
    · exact le_getLastD_of_le t q q le_rfl fun x hx =>
        le_of_lt ((List.pairwise_cons.mp hc).1 x hx)
    · exact ih (List.pairwise_cons.mp hc).2 a q hq2

/-- The defaulted last element of a nonempty list is a member. -/
theorem getLastD_mem (c : List ℚ) (d : ℚ) (h : c ≠ []) : c.getLastD d ∈ c := by
  induction c generalizing d with
  | nil => exact absurd rfl h
  | cons a t ih =>
    rw [List.getLastD_cons]
    cases t with
    | nil => simp [List.getLastD]
    | cons b t2 => exact List.mem_cons_of_mem a (ih a (by simp))

/-- Positional timestamps are strictly increasing on a monotone trace. -/
theorem getD_t_strict_mono (data : List Sample)
    (hmono : data.Pairwise (fun a b => a.t < b.t)) :
    ∀ i j, i < j → j < data.length →
      (data.getD i default).t < (data.getD j default).t := by
  intro i j hij hj
  have hi : i < data.length := lt_trans hij hj
  rw [List.getD_eq_getElem data default hi, List.getD_eq_getElem data default hj]
  have := List.pairwise_iff_get.mp hmono ⟨i, hi⟩ ⟨j, hj⟩ hij
  simpa using this

/-- On a monotone trace the peak-time list is strictly sorted (its entries
come from increasing positions). -/
theorem peakTimes_sorted (data : List Sample)
    (hmono : data.Pairwise (fun a b => a.t < b.t)) :
    (peakTimes data).Pairwise (· < ·) := by
  unfold peakTimes
  rw [List.pairwise_map]
  refine ((List.pairwise_lt_range data.length).filter _).imp_of_mem ?_
  intro a b _ hb hab
  have hbp := List.of_mem_filter hb
  simp only [Bool.and_eq_true, decide_eq_true_eq] at hbp
  exact getD_t_strict_mono data hmono a b hab (lt_trans (Nat.lt_succ_self b) hbp.1.1.2)

/-- The before-window of every event `excGo` emits starts exactly at the
snapped start: the latest preceding extremum of the direction's list (peaks
for hypo, nadirs for hyper), per `snapStart`. -/
theorem excGo_before_window (data : List Sample) (m v z minL endL itv : ℚ)
    (rows : List Sample) (pks nds : List ℚ) :
    ∀ es : List ℕ, ∀ ev ∈ excGo data m v z minL endL itv rows pks nds es,
      ev.time - ev.before = snapStart data
        (match ev.dir with | .hypo => pks | .hyper => nds) ev.rawStartT := by
  have key : ∀ n (es : List ℕ), es.length ≤ n →
      ∀ ev ∈ excGo data m v z minL endL itv rows pks nds es,
        ev.time - ev.before = snapStart data
          (match ev.dir with | .hypo => pks | .hyper => nds) ev.rawStartT := by
    intro n
    induction n with
    | zero =>
      intro es hlen ev hev
      have : es = [] := List.length_eq_zero.mp (Nat.le_zero.mp hlen)
      subst this
      simp [excGo] at hev
    | succ n ih =>
      intro es hlen ev hev
      match es with
      | [] => simp [excGo] at hev
      | [e] =>
        simp only [excGo] at hev
        split at hev
        · rw [List.mem_singleton] at hev
          subst hev
          rcases hdir : (if m < (rows.getD e default).g then Dir.hyper else Dir.hypo)
            with _ | _ <;> simp [mkExc, hdir]
        · simp at hev
      | e :: f :: rest =>
        have hlen2 : (f :: rest).length ≤ n := by simpa using Nat.le_of_succ_le_succ hlen
        have hlene : (e :: rest).length ≤ n := by simpa using Nat.le_of_succ_le_succ hlen
        simp only [excGo] at hev
        split at hev
        · exact ih (f :: rest) hlen2 ev hev
        · split at hev
          · split at hev
            · rw [List.mem_cons] at hev
              rcases hev with hev | hev
              · subst hev
                simp [mkExc]
              · exact ih (f :: rest) hlen2 ev hev
            · exact ih (e :: rest) hlene ev hev
          · split at hev
            · rw [List.mem_cons] at hev
              rcases hev with hev | hev
              · subst hev
                simp [mkExc]
              · exact ih (f :: rest) hlen2 ev hev
            · exact ih (e :: rest) hlene ev hev
  intro es
  exact key es.length es le_rfl

/-- C9A (amended): for every monotone trace and every emitted hypo excursion
whose (raw) interval does not start at the very first trace sample, if any
local peak lies at or before the raw interval start then the before window
starts exactly at the nearest such peak: it is a peak time, at or before the
raw start, and no peak at or before the raw start lies later.  (The window
therefore reaches back at least to the nearest preceding peak, but not
necessarily to earlier peaks.) -/
theorem excursion_before_window_nearest_peak (data : List Sample)
    (z minL endL itv : ℚ) (hmono : data.Pairwise (fun a b => a.t < b.t))
    (ev : ExcEvent) (hev : ev ∈ getExcursions data z minL endL itv)
    (hdir : ev.dir = .hypo)
    (hidx : ¬ data.findIdx (fun s => decide (s.t = ev.rawStartT)) = 0)
    (p : ℚ) (hp : p ∈ peakTimes data) (hpb : p ≤ ev.rawStartT) :
    (ev.time - ev.before) ∈ peakTimes data ∧
      ev.time - ev.before ≤ ev.rawStartT ∧ p ≤ ev.time - ev.before := by
  have hsnap := excGo_before_window data (qMean (data.map Sample.g))
    (qVar (data.map Sample.g)) z minL endL itv
    (data.filter fun s => isOutlier (qMean (data.map Sample.g)) (qVar (data.map Sample.g)) z s.g)
    (peakTimes data) (nadirTimes data) _ ev hev
  rw [hdir] at hsnap
  unfold snapStart at hsnap
  rw [if_neg hidx] at hsnap
  set c := (peakTimes data).filter (fun q => decide (q ≤ ev.rawStartT)) with hc
  have hpc : p ∈ c := List.mem_filter.mpr ⟨hp, by simpa using hpb⟩
  have hcne : c ≠ [] := fun hnil => by simp [hnil] at hpc
  have hcne2 : ¬ c.isEmpty = true := fun h2 => hcne (List.isEmpty_iff.mp h2)
  rw [if_neg hcne2] at hsnap
  have hsorted : c.Pairwise (· < ·) := (peakTimes_sorted data hmono).filter _
  have hmem : c.getLastD ev.rawStartT ∈ c := getLastD_mem c ev.rawStartT hcne
  refine ⟨?_, ?_, ?_⟩
  · rw [hsnap]; exact List.mem_of_mem_filter hmem
  · rw [hsnap]
    have := List.of_mem_filter hmem
    simpa using this
  · rw [hsnap]
    exact sorted_le_getLastD c hsorted ev.rawStartT p hpc

/-- A trace with two local peaks (t = 5 and t = 15) before a deep hypo
outlier at t = 30 (mean 95, sample variance 6650/9, lower bound
95 − 2·sd ≈ 40.6). -/
def cTrace : List Sample :=
  [⟨0, 100⟩, ⟨5, 110⟩, ⟨10, 100⟩, ⟨15, 120⟩, ⟨20, 100⟩, ⟨25, 100⟩, ⟨30, 20⟩,
    ⟨35, 100⟩, ⟨40, 100⟩, ⟨45, 100⟩]

/-- C9 counterexample: `cTrace` has a local peak at t = 5 strictly before the
detected hypo excursion's raw start (t = 30, not the first trace sample), yet
the emitted before window starts at t = 15 (= time − before), the nearest
peak — it does not extend back to the earlier peak at t = 5. -/
theorem excursion_snap_skips_earlier_peak :
    getExcursions cTrace 2 0 0 5 = [⟨30, 15, 0, .hypo, 15, 30, 30, 30⟩] ∧
      (5 : ℚ) ∈ peakTimes cTrace ∧ (5 : ℚ) < 30 ∧ ¬((30 : ℚ) - 15 ≤ 5) := by
  refine ⟨?_, ?_, by norm_num, by norm_num⟩
  · norm_num [getExcursions, cTrace, qMean, qVar, isOutlier, edgeIdxs, excGo, mkExc,
      argminSample, argmaxSample, peakTimes, nadirTimes, snapStart, snapEnd,
      List.findIdx, List.findIdx.go, List.range_succ, List.filter]
  · norm_num [peakTimes, cTrace, List.range_succ, List.filter]

/-- Witness for `excursion_before_window_nearest_peak` on `cTrace` with the
nearer peak p = 15. -/
theorem excursion_before_window_nearest_peak_witness :
    cTrace.Pairwise (fun a b => a.t < b.t) ∧
      (⟨30, 15, 0, .hypo, 15, 30, 30, 30⟩ : ExcEvent) ∈ getExcursions cTrace 2 0 0 5 ∧
      ¬ cTrace.findIdx (fun s => decide (s.t = (30 : ℚ))) = 0 ∧
      (15 : ℚ) ∈ peakTimes cTrace ∧ (15 : ℚ) ≤ 30 ∧
      ((30 : ℚ) - 15 ∈ peakTimes cTrace ∧ (30 : ℚ) - 15 ≤ 30 ∧ (15 : ℚ) ≤ 30 - 15) := by
  have hmono : cTrace.Pairwise (fun a b => a.t < b.t) := by
    norm_num [cTrace, List.pairwise_cons]
  have hmem : (⟨30, 15, 0, .hypo, 15, 30, 30, 30⟩ : ExcEvent) ∈
      getExcursions cTrace 2 0 0 5 := by
    have heval : getExcursions cTrace 2 0 0 5 = [⟨30, 15, 0, .hypo, 15, 30, 30, 30⟩] := by
      norm_num [getExcursions, cTrace, qMean, qVar, isOutlier, edgeIdxs, excGo, mkExc,
        argminSample, argmaxSample, peakTimes, nadirTimes, snapStart, snapEnd,
        List.findIdx, List.findIdx.go, List.range_succ, List.filter]
    rw [heval]
    exact List.mem_singleton.mpr rfl
  have hidx : ¬ cTrace.findIdx (fun s => decide (s.t = (30 : ℚ))) = 0 := by
    norm_num [cTrace, List.findIdx, List.findIdx.go]
  have hp : (15 : ℚ) ∈ peakTimes cTrace := by
    norm_num [peakTimes, cTrace, List.range_succ, List.filter]
  exact ⟨hmono, hmem, hidx, hp, by norm_num,
    excursion_before_window_nearest_peak cTrace 2 0 0 5 hmono _ hmem rfl hidx 15 hp
      (by norm_num)⟩

/-- C8A (amended): the core entry points perform no trace-shape validation at
all.  An empty trace for a requested patient produces the empty event list
(no exception is raised), and — per `episodesHelper_no_error_on_invalid_trace`
— non-monotonic or irregularly sampled traces are processed as-is, the
irregular gaps merely splitting intervals, with samples neither dropped nor
reordered nor rejected. -/
theorem core_no_validation_on_degenerate_input (dir : Dir) (thr : ℚ) (level : ℕ)
    (minL endL itv z : ℚ) :
    episodesHelper [] dir thr level minL endL itv = [] ∧
      getExcursions [] z minL endL itv = [] := by
  constructor
  · simp [episodesHelper, edgeIdxs, epGo]
  · simp [getExcursions, edgeIdxs, excGo]

/-- An input event row for the aggregator: anchor timestamp and minutes
before/after (the ID/TYPE/DESCRIPTION columns play no computational role for
one patient and one type). -/
structure InEvent where
  t : ℚ
  before : ℚ
  after : ℚ
deriving DecidableEq, Repr

/-- `retrieve_event_data` for one patient and one event (events.py
lines 369-401): the trace slice with timestamps inside
`[t − before, t + after]`. -/
def retrieveEventData (trace : List Sample) (ev : InEvent) : List Sample :=
  trace.filter fun s => decide (ev.t - ev.before ≤ s.t) && decide (s.t ≤ ev.t + ev.after)

/-- `np.min` (`events.nadir`); raises on an empty series, hence `none`. -/
def qListMin : List ℚ → Option ℚ
  | [] => none
  | a :: t => some (t.foldl min a)

/-- `np.max` (`events.peak`); raises on an empty series, hence `none`. -/
def qListMax : List ℚ → Option ℚ
  | [] => none
  | a :: t => some (t.foldl max a)

/-- `np.mean` of a list; NaN (`none`) on the empty list. -/
def qMeanOpt (l : List ℚ) : Option ℚ := if l.isEmpty then none else some (qMean l)

/-- Accumulator of `create_event_features_helper` (events.py lines 546-555):
the eight feature keys.  Six are lists that grow by `append`; `minG` and
`maxG` model the bug at lines 564-565 — the code *assigns*
`features[...] = nadir(...)` / `= peak(...)` instead of appending, so they
hold only the most recent event's scalar (`none` = still the initial empty
list). -/
structure AggState where
  durations : List ℚ
  meanGs : List ℚ
  upSlopes : List ℚ
  downSlopes : List ℚ
  minG : Option ℚ
  maxG : Option ℚ
  amps : List ℚ
  iaucs : List ℚ
deriving DecidableEq, Repr

/-- All eight keys start as empty lists. -/
def initAggState : AggState := ⟨[], [], [], [], none, none, [], []⟩

/-- One iteration of the event loop (events.py lines 557-583).  `none`
models the exceptions on an empty slice (`np.min`) or a missing anchor row
(`squeeze` of an empty frame). -/
def aggStep (trace : List Sample) (itv : ℚ) (st : AggState) (ev : InEvent) :
    Option AggState := do
  let ed := retrieveEventData trace ev
  let duration := ev.after - ev.before
  let meanG ← qMeanOpt (ed.map Sample.g)
  let mn ← qListMin (ed.map Sample.g)
  let mx ← qListMax (ed.map Sample.g)
  let anchor ← (ed.filter fun s => decide (s.t = ev.t)).head?
  let base ← (ed.map Sample.g).head?
  let first ← ed.head?
  let last ← ed.getLast?
  let amplitude := anchor.g - base
  let dts := anchor.t - first.t
  let dte := anchor.t - last.t
  let startSlope := if dts = 0 then 0 else amplitude / dts
  let endSlope := if dte = 0 then 0 else amplitude / dte
  let up := if 0 ≤ amplitude then |startSlope| else |endSlope|
  let down := if 0 ≤ amplitude then -|endSlope| else -|startSlope|
  pure { durations := st.durations ++ [duration]
         meanGs := st.meanGs ++ [meanG]
         upSlopes := st.upSlopes ++ [up]
         downSlopes := st.downSlopes ++ [down]
         minG := some mn
         maxG := some mx
         amps := st.amps ++ [|amplitude|]
         iaucs := st.iaucs ++ [eventsIAUC (ed.map Sample.g) base itv] }

/-- The aggregated per-type features (events.py lines 585-587): `np.mean`
over each accumulated list; for the overwritten scalars `np.mean` of a
scalar is the scalar itself. -/
structure EventAgg where
  meanDuration : Option ℚ
  meanGlucose : Option ℚ
  upSlope : Option ℚ
  downSlope : Option ℚ
  minGlucose : Option ℚ
  maxGlucose : Option ℚ
  amplitude : Option ℚ
  iAUCMean : Option ℚ
  perDay : ℚ
deriving DecidableEq, Repr

/-- `create_event_features_helper` (events.py lines 529-587) for one patient
and one event type; `perDay` divides the instance count by the number of
distinct calendar days (1440-minute blocks) in the trace. -/
def createEventFeaturesHelper (trace : List Sample) (events : List InEvent)
    (itv : ℚ) : Option EventAgg :=
  (events.foldlM (aggStep trace itv) initAggState).map fun st =>
    { meanDuration := qMeanOpt st.durations
      meanGlucose := qMeanOpt st.meanGs
      upSlope := qMeanOpt st.upSlopes
      downSlope := qMeanOpt st.downSlopes
      minGlucose := st.minG
      maxGlucose := st.maxG
      amplitude := qMeanOpt st.amps
      iAUCMean := qMeanOpt st.iaucs
      perDay := (events.length : ℚ) /
        (((trace.map fun s => Int.floor (s.t / 1440)).dedup).length : ℚ) }

/-- Trace for the aggregator scenario: nadir 50 inside the first event's
window, nadir 80 inside the second's. -/
def aggTrace : List Sample :=
  [⟨0, 100⟩, ⟨5, 50⟩, ⟨10, 100⟩, ⟨15, 100⟩, ⟨20, 80⟩, ⟨25, 100⟩]

/-- Two events of one type: anchors t = 5 and t = 20, window ±5 minutes. -/
def aggEvents : List InEvent := [⟨5, 5, 5⟩, ⟨20, 5, 5⟩]

/-- C7: the reported "Mean Minimum Glucose" feature is the nadir of the LAST
event instance only (80), not the average over all instances
((50 + 80) / 2 = 65): events.py lines 564-565 assign instead of appending. -/
theorem aggregated_min_glucose_is_last_event_only :
    (createEventFeaturesHelper aggTrace aggEvents 5).map EventAgg.minGlucose
        = some (some 80) ∧
      (aggEvents.map fun e => qListMin ((retrieveEventData aggTrace e).map Sample.g))
        = [some 50, some 80] ∧
      qMean [50, 80] = 65 ∧ ¬((80 : ℚ) = 65) := by
  refine ⟨?_, ?_, by norm_num [qMean], by norm_num⟩
  · norm_num [createEventFeaturesHelper, aggTrace, aggEvents, List.foldlM, aggStep,
      retrieveEventData, qMeanOpt, qMean, qListMin, qListMax, initAggState,
      eventsIAUC, qAUC, trapSum, bind, Option.bind, pure, List.filter]
  · norm_num [aggEvents, aggTrace, retrieveEventData, qListMin, List.filter]

/-- Unfolding: `epGo` on the empty boundary list. -/
theorem epGo_nil (data : List Sample) (dir : Dir) (thr : ℚ) (level : ℕ)
    (minL endL itv : ℚ) (rows : List Sample) :
    epGo data dir thr level minL endL itv rows [] = [] := by
  simp [epGo]

/-- Unfolding: `epGo` on the final interval (no look-ahead). -/
theorem epGo_single (data : List Sample) (dir : Dir) (thr : ℚ) (level : ℕ)
    (minL endL itv : ℚ) (rows : List Sample) (e : ℕ) :
    epGo data dir thr level minL endL itv rows [e] =
      if minL ≤ (rows.getD (rows.length - 1) default).t - (rows.getD e default).t then
        [mkEp dir level (rows.getD e default) (rows.getD (rows.length - 1) default)]
      else [] := by
  simp only [epGo]

/-- Unfolding: `epGo` on an interior interval. -/
theorem epGo_cons (data : List Sample) (dir : Dir) (thr : ℚ) (level : ℕ)
    (minL endL itv : ℚ) (rows : List Sample) (e f : ℕ) (rest : List ℕ) :
    epGo data dir thr level minL endL itv rows (e :: f :: rest) =
      if (rows.getD (f - 1) default).t - (rows.getD e default).t < minL then
        epGo data dir thr level minL endL itv rows (f :: rest)
      else if lookaheadClean data dir thr endL itv (rows.getD (f - 1) default).t = true then
        mkEp dir level (rows.getD e default) (rows.getD (f - 1) default) ::
          epGo data dir thr level minL endL itv rows (f :: rest)
      else epGo data dir thr level minL endL itv rows (e :: rest) := by
  simp only [epGo]

/-- A longer look-ahead requirement inspects at least as many samples. -/
theorem endCounts_mono (e1 e2 itv : ℚ) (hitv : 0 < itv) (he : e1 ≤ e2) :
    endCounts e1 itv ≤ endCounts e2 itv := by
  unfold endCounts
  have hdiv : e1 / itv ≤ e2 / itv := by gcongr
  exact Int.toNat_le_toNat (Int.ceil_le_ceil hdiv)

/-- `all` over a longer prefix implies `all` over a shorter one. -/
theorem all_take_mono {α : Type} (p : α → Bool) (l : List α) (n1 n2 : ℕ)
    (h : n1 ≤ n2) (h2 : (l.take n2).all p = true) : (l.take n1).all p = true := by
  rw [List.all_eq_true] at h2 ⊢
  intro x hx
  apply h2
  have heq : l.take n1 = (l.take n2).take n1 := by rw [List.take_take, min_eq_left h]
  rw [heq] at hx
  exact List.take_subset _ _ hx

/-- Monotonicity of the look-ahead test: if the interval resolves under the
longer window `e2` it also resolves under any shorter window `e1 ≤ e2`
(the `e1` window is a prefix of the `e2` window). -/
theorem lookaheadClean_mono (data : List Sample) (dir : Dir) (thr e1 e2 itv tEnd : ℚ)
    (hitv : 0 < itv) (he : e1 ≤ e2)
    (h : lookaheadClean data dir thr e2 itv tEnd = true) :
    lookaheadClean data dir thr e1 itv tEnd = true := by
  unfold lookaheadClean at h ⊢
  exact all_take_mono _ _ _ _ (endCounts_mono e1 e2 itv hitv he) h

/-- Coarsening order on emitted episode lists: no more events, and every
finer event is contained in some coarser one. -/
def coarsens (A B : List EpEvent) : Prop :=
  A.length ≤ B.length ∧ ∀ b ∈ B, ∃ a ∈ A, a.startT ≤ b.startT ∧ b.endT ≤ a.endT

/-- `coarsens` is reflexive. -/
theorem coarsens_refl (A : List EpEvent) : coarsens A A :=
  ⟨le_rfl, fun b hb => ⟨b, hb, le_rfl, le_rfl⟩⟩

/-- Dropping the middle element preserves strict sortedness. -/
theorem pairwise_lt_drop_mid (e f : ℕ) (rest : List ℕ)
    (h : (e :: f :: rest).Pairwise (· < ·)) : (e :: rest).Pairwise (· < ·) := by
  rw [List.pairwise_cons] at h ⊢
  exact ⟨fun x hx => h.1 x (List.mem_cons_of_mem f hx),
    (List.pairwise_cons.mp h.2).2⟩

/-- Dropping the middle element preserves the bound. -/
theorem bound_drop_mid (e f : ℕ) (rest : List ℕ) (len : ℕ)
    (h : ∀ x ∈ e :: f :: rest, x < len) : ∀ x ∈ e :: rest, x < len := by
  intro x hx
  rcases List.mem_cons.mp hx with rfl | hx2
  · exact h x (List.mem_cons_self x (f :: rest))
  · exact h x (List.mem_cons_of_mem e (List.mem_cons_of_mem f hx2))

/-- Joint induction for the coarsening property.  For every boundary list
(strictly sorted, in bounds): the `e2` run coarsens the `e1` run; and — the
merge invariant — when the head interval `(e, f)` already has length
≥ `min_length` and the `e2` run merges past `f`, the `e2` run on `e :: rest`
coarsens the event `(e, f-1)` followed by the `e1` run on `f :: rest`. -/
theorem epGo_coarsening_aux (data : List Sample) (dir : Dir) (thr : ℚ) (level : ℕ)
    (minL itv e1 e2 : ℚ) (rows : List Sample)
    (hitv : 0 < itv) (he : e1 ≤ e2)
    (hrows : ∀ i j : ℕ, i ≤ j → j < rows.length →
      (rows.getD i default).t ≤ (rows.getD j default).t) :
    ∀ n : ℕ,
      (∀ es : List ℕ, es.length ≤ n → es.Pairwise (· < ·) →
        (∀ x ∈ es, x < rows.length) →
        coarsens (epGo data dir thr level minL e2 itv rows es)
          (epGo data dir thr level minL e1 itv rows es)) ∧
      (∀ (rest : List ℕ) (e f : ℕ), rest.length + 2 ≤ n →
        (e :: f :: rest).Pairwise (· < ·) →
        (∀ x ∈ e :: f :: rest, x < rows.length) →
        minL ≤ (rows.getD (f - 1) default).t - (rows.getD e default).t →
        coarsens (epGo data dir thr level minL e2 itv rows (e :: rest))
          (mkEp dir level (rows.getD e default) (rows.getD (f - 1) default) ::
            epGo data dir thr level minL e1 itv rows (f :: rest))) := by
  intro n
  induction n using Nat.strong_induction_on with
  | _ n ih =>
  have hQ : ∀ (rest : List ℕ) (e f : ℕ), rest.length + 2 ≤ n →
      (e :: f :: rest).Pairwise (· < ·) →
      (∀ x ∈ e :: f :: rest, x < rows.length) →
      minL ≤ (rows.getD (f - 1) default).t - (rows.getD e default).t →
      coarsens (epGo data dir thr level minL e2 itv rows (e :: rest))
        (mkEp dir level (rows.getD e default) (rows.getD (f - 1) default) ::
          epGo data dir thr level minL e1 itv rows (f :: rest)) := by
    intro rest e f hlen hsort hbound hminL
    have hef : e < f := (List.pairwise_cons.mp hsort).1 f (List.mem_cons_self f rest)
    have hfb : f < rows.length :=
      hbound f (List.mem_cons_of_mem e (List.mem_cons_self f rest))
    have heb : e < rows.length := hbound e (List.mem_cons_self e (f :: rest))
    cases rest with
    | nil =>
      rw [epGo_single data dir thr level minL e2 itv rows e,
        epGo_single data dir thr level minL e1 itv rows f]
      have hlast : (rows.getD (f - 1) default).t ≤
          (rows.getD (rows.length - 1) default).t :=
        hrows (f - 1) (rows.length - 1) (by omega) (by omega)
      have hcond : minL ≤
          (rows.getD (rows.length - 1) default).t - (rows.getD e default).t := by
        linarith
      rw [if_pos hcond]
      refine ⟨?_, ?_⟩
      · split
        · simp
        · simp
      · intro b hb
        rcases List.mem_cons.mp hb with rfl | hb2
        · exact ⟨mkEp dir level (rows.getD e default)
            (rows.getD (rows.length - 1) default),
            List.mem_singleton.mpr rfl, le_rfl, hlast⟩
        · split at hb2
          · rcases List.mem_singleton.mp hb2 with rfl
            exact ⟨mkEp dir level (rows.getD e default)
              (rows.getD (rows.length - 1) default),
              List.mem_singleton.mpr rfl, hrows e f (le_of_lt hef) hfb, le_rfl⟩
          · simp at hb2
    | cons f' rest' =>
      simp only [List.length_cons] at hlen
      have hff' : f < f' :=
        (List.pairwise_cons.mp (List.pairwise_cons.mp hsort).2).1 f'
          (List.mem_cons_self f' rest')
      have hf'b : f' < rows.length :=
        hbound f' (List.mem_cons_of_mem e (List.mem_cons_of_mem f
          (List.mem_cons_self f' rest')))
      have hEN12 : (rows.getD (f - 1) default).t ≤ (rows.getD (f' - 1) default).t :=
        hrows (f - 1) (f' - 1) (by omega) (by omega)
      have hminL2 : minL ≤
          (rows.getD (f' - 1) default).t - (rows.getD e default).t := by linarith
      have hsortEf' : (e :: f' :: rest').Pairwise (· < ·) := by
        have h1 := List.pairwise_cons.mp hsort
        have h2 := List.pairwise_cons.mp h1.2
        rw [List.pairwise_cons]
        exact ⟨fun x hx => h1.1 x (List.mem_cons_of_mem f hx), h2.2⟩
      have hboundEf' : ∀ x ∈ e :: f' :: rest', x < rows.length :=
        bound_drop_mid e f (f' :: rest') rows.length hbound
      have hsortEf : (e :: f :: rest').Pairwise (· < ·) := by
        have h1 := List.pairwise_cons.mp hsort
        have h2 := List.pairwise_cons.mp h1.2
        rw [List.pairwise_cons]
        refine ⟨fun x hx => ?_, pairwise_lt_drop_mid f f' rest' h1.2⟩
        rcases List.mem_cons.mp hx with rfl | hx2
        · exact hef
        · exact h1.1 x (List.mem_cons_of_mem f (List.mem_cons_of_mem f' hx2))
      have hboundEf : ∀ x ∈ e :: f :: rest', x < rows.length := by
        intro x hx
        rcases List.mem_cons.mp hx with rfl | hx2
        · exact heb
        · exact bound_drop_mid f f' rest' rows.length
            (fun y hy => hbound y (List.mem_cons_of_mem e hy)) x hx2
      have hsortF' : (f' :: rest').Pairwise (· < ·) :=
        (List.pairwise_cons.mp (List.pairwise_cons.mp hsort).2).2
      have hboundF' : ∀ x ∈ f' :: rest', x < rows.length :=
        fun x hx => hbound x (List.mem_cons_of_mem e (List.mem_cons_of_mem f hx))
      have hn2 : 2 ≤ n := by omega
      rw [epGo_cons data dir thr level minL e2 itv rows e f' rest',
        epGo_cons data dir thr level minL e1 itv rows f f' rest']
      rw [if_neg (not_lt.mpr hminL2)]
      by_cases hc2 : lookaheadClean data dir thr e2 itv
          (rows.getD (f' - 1) default).t = true
      · rw [if_pos hc2]
        have hc1 : lookaheadClean data dir thr e1 itv
            (rows.getD (f' - 1) default).t = true :=
          lookaheadClean_mono data dir thr e1 e2 itv _ hitv he hc2
        by_cases hlf : (rows.getD (f' - 1) default).t - (rows.getD f default).t < minL
        · rw [if_pos hlf]
          obtain ⟨hl, hc⟩ := (ih (n - 1) (by omega)).1 (f' :: rest')
            (by simp only [List.length_cons]; omega) hsortF' hboundF'
          refine ⟨?_, ?_⟩
          · simp only [List.length_cons]
            omega
          · intro b hb
            rcases List.mem_cons.mp hb with rfl | hb2
            · exact ⟨mkEp dir level (rows.getD e default) (rows.getD (f' - 1) default),
                List.mem_cons_self _ _, le_rfl, hEN12⟩
            · obtain ⟨a, ha, h1, h2⟩ := hc b hb2
              exact ⟨a, List.mem_cons_of_mem _ ha, h1, h2⟩
        · rw [if_neg hlf, if_pos hc1]
          obtain ⟨hl, hc⟩ := (ih (n - 1) (by omega)).1 (f' :: rest')
            (by simp only [List.length_cons]; omega) hsortF' hboundF'
          refine ⟨?_, ?_⟩
          · simp only [List.length_cons]
            omega
          · intro b hb
            rcases List.mem_cons.mp hb with rfl | hb2
            · exact ⟨mkEp dir level (rows.getD e default) (rows.getD (f' - 1) default),
                List.mem_cons_self _ _, le_rfl, hEN12⟩
            rcases List.mem_cons.mp hb2 with rfl | hb3
            · exact ⟨mkEp dir level (rows.getD e default) (rows.getD (f' - 1) default),
                List.mem_cons_self _ _, hrows e f (le_of_lt hef) hfb, le_rfl⟩
            · obtain ⟨a, ha, h1, h2⟩ := hc b hb3
              exact ⟨a, List.mem_cons_of_mem _ ha, h1, h2⟩
      · rw [if_neg hc2]
        by_cases hlf : (rows.getD (f' - 1) default).t - (rows.getD f default).t < minL
        · rw [if_pos hlf]
          obtain ⟨hl, hc⟩ := (ih (n - 1) (by omega)).2 rest' e f'
            (by omega) hsortEf' hboundEf' hminL2
          refine ⟨?_, ?_⟩
          · simp only [List.length_cons] at hl ⊢
            omega
          · intro b hb
            rcases List.mem_cons.mp hb with rfl | hb2
            · obtain ⟨a, ha, h1, h2⟩ := hc
                (mkEp dir level (rows.getD e default) (rows.getD (f' - 1) default))
                (List.mem_cons_self _ _)
              exact ⟨a, ha, h1, le_trans hEN12 h2⟩
            · exact hc b (List.mem_cons_of_mem _ hb2)
        · by_cases hcl1 : lookaheadClean data dir thr e1 itv
              (rows.getD (f' - 1) default).t = true
          · rw [if_neg hlf, if_pos hcl1]
            obtain ⟨hl, hc⟩ := (ih (n - 1) (by omega)).2 rest' e f'
              (by omega) hsortEf' hboundEf' hminL2
            refine ⟨?_, ?_⟩
            · simp only [List.length_cons] at hl ⊢
              omega
            · intro b hb
              rcases List.mem_cons.mp hb with rfl | hb2
              · obtain ⟨a, ha, h1, h2⟩ := hc
                  (mkEp dir level (rows.getD e default) (rows.getD (f' - 1) default))
                  (List.mem_cons_self _ _)
                exact ⟨a, ha, h1, le_trans hEN12 h2⟩
              rcases List.mem_cons.mp hb2 with rfl | hb3
              · obtain ⟨a, ha, h1, h2⟩ := hc
                  (mkEp dir level (rows.getD e default) (rows.getD (f' - 1) default))
                  (List.mem_cons_self _ _)
                exact ⟨a, ha, le_trans h1 (hrows e f (le_of_lt hef) hfb), h2⟩
              · exact hc b (List.mem_cons_of_mem _ hb3)
          · rw [if_neg hlf, if_neg hcl1]
            exact (ih (n - 1) (by omega)).2 rest' e f (by omega) hsortEf hboundEf hminL
  have hP : ∀ es : List ℕ, es.length ≤ n → es.Pairwise (· < ·) →
      (∀ x ∈ es, x < rows.length) →
      coarsens (epGo data dir thr level minL e2 itv rows es)
        (epGo data dir thr level minL e1 itv rows es) := by
    intro es hlen hsort hbound
    match es with
    | [] =>
      rw [epGo_nil, epGo_nil]
      exact coarsens_refl []
    | [e] =>
      rw [epGo_single data dir thr level minL e2 itv rows e,
        epGo_single data dir thr level minL e1 itv rows e]
      exact coarsens_refl _
    | e :: f :: rest =>
      have hn2 : 2 ≤ n := by
        simp only [List.length_cons] at hlen
        omega
      have hsortF : (f :: rest).Pairwise (· < ·) := (List.pairwise_cons.mp hsort).2
      have hboundF : ∀ x ∈ f :: rest, x < rows.length :=
        fun x hx => hbound x (List.mem_cons_of_mem e hx)
      have hsortE : (e :: rest).Pairwise (· < ·) := pairwise_lt_drop_mid e f rest hsort
      have hboundE : ∀ x ∈ e :: rest, x < rows.length :=
        bound_drop_mid e f rest rows.length hbound
      have hlenT : (f :: rest).length ≤ n - 1 := by
        simp only [List.length_cons] at hlen ⊢
        omega
      have hlenE : (e :: rest).length ≤ n - 1 := by
        simp only [List.length_cons] at hlen ⊢
        omega
      rw [epGo_cons data dir thr level minL e2 itv rows e f rest,
        epGo_cons data dir thr level minL e1 itv rows e f rest]
      by_cases hL : (rows.getD (f - 1) default).t - (rows.getD e default).t < minL
      · rw [if_pos hL, if_pos hL]
        exact (ih (n - 1) (by omega)).1 (f :: rest) hlenT hsortF hboundF
      · rw [if_neg hL, if_neg hL]
        by_cases hc1 : lookaheadClean data dir thr e1 itv
            (rows.getD (f - 1) default).t = true
        · by_cases hc2 : lookaheadClean data dir thr e2 itv
              (rows.getD (f - 1) default).t = true
          · rw [if_pos hc1, if_pos hc2]
            obtain ⟨hl, hc⟩ := (ih (n - 1) (by omega)).1 (f :: rest) hlenT hsortF hboundF
            refine ⟨?_, ?_⟩
            · simp only [List.length_cons]
              omega
            · intro b hb
              rcases List.mem_cons.mp hb with rfl | hb2
              · exact ⟨mkEp dir level (rows.getD e default) (rows.getD (f - 1) default),
                  List.mem_cons_self _ _, le_rfl, le_rfl⟩
              · obtain ⟨a, ha, h1, h2⟩ := hc b hb2
                exact ⟨a, List.mem_cons_of_mem _ ha, h1, h2⟩
          · rw [if_pos hc1, if_neg hc2]
            exact hQ rest e f (by simp only [List.length_cons] at hlen; omega)
              hsort hbound (not_lt.mp hL)
        · have hc2 : ¬ lookaheadClean data dir thr e2 itv
              (rows.getD (f - 1) default).t = true :=
            fun h => hc1 (lookaheadClean_mono data dir thr e1 e2 itv _ hitv he h)
          rw [if_neg hc1, if_neg hc2]
          exact (ih (n - 1) (by omega)).1 (e :: rest) hlenE hsortE hboundE
  exact ⟨hP, hQ⟩

/-- C5: with all other parameters fixed, on a valid trace (strictly
increasing timestamps, positive sampling interval) increasing `end_length`
from `e1` to `e2 ≥ e1` only merges episode intervals further: the `e2` run
emits no more events than the `e1` run, and every `e1` episode interval is
contained in (starts no earlier / ends no later than) some `e2` episode
interval. -/
theorem episodes_endLength_coarsening (data : List Sample) (dir : Dir) (thr : ℚ)
    (level : ℕ) (minL itv e1 e2 : ℚ)
    (hmono : data.Pairwise (fun a b => a.t < b.t)) (hitv : 0 < itv) (he : e1 ≤ e2) :
    (episodesHelper data dir thr level minL e2 itv).length ≤
        (episodesHelper data dir thr level minL e1 itv).length ∧
      ∀ b ∈ episodesHelper data dir thr level minL e1 itv,
        ∃ a ∈ episodesHelper data dir thr level minL e2 itv,
          a.startT ≤ b.startT ∧ b.endT ≤ a.endT := by
  have hpw : (data.filter (inEpisode dir thr)).Pairwise (fun a b => a.t < b.t) :=
    List.Pairwise.sublist (List.filter_sublist data) hmono
  have hrows : ∀ i j : ℕ, i ≤ j → j < (data.filter (inEpisode dir thr)).length →
      ((data.filter (inEpisode dir thr)).getD i default).t ≤
        ((data.filter (inEpisode dir thr)).getD j default).t := by
    intro i j hij hj
    rcases Nat.lt_or_ge i j with h | h
    · exact le_of_lt (getD_t_strict_mono _ hpw i j h hj)
    · have heq : i = j := le_antisymm hij h
      rw [heq]
  have key := (epGo_coarsening_aux data dir thr level minL itv e1 e2
    (data.filter (inEpisode dir thr)) hitv he hrows
    (edgeIdxs (data.filter (inEpisode dir thr)) itv).length).1
    (edgeIdxs (data.filter (inEpisode dir thr)) itv) le_rfl
    (edgeIdxs_sorted _ itv) (edgeIdxs_bound _ itv)
  exact ⟨key.1, key.2⟩

/-- Witness for `episodes_endLength_coarsening` on `epTrace` with
`e1 = 5 ≤ e2 = 15`. -/
theorem episodes_endLength_coarsening_witness :
    epTrace.Pairwise (fun a b => a.t < b.t) ∧ (0 : ℚ) < 5 ∧ (5 : ℚ) ≤ 15 ∧
      (episodesHelper epTrace .hypo 70 1 15 15 5).length ≤
        (episodesHelper epTrace .hypo 70 1 15 5 5).length ∧
      ∃ a ∈ episodesHelper epTrace .hypo 70 1 15 15 5,
        a.startT ≤ (0 : ℚ) ∧ (15 : ℚ) ≤ a.endT := by
  have hmono : epTrace.Pairwise (fun a b => a.t < b.t) := by
    norm_num [epTrace, List.pairwise_cons]
  have hkey := episodes_endLength_coarsening epTrace .hypo 70 1 15 5 5 15 hmono
    (by norm_num) (by norm_num)
  have hmem : (⟨0, 0, 15, .hypo, 1, 0, 15⟩ : EpEvent) ∈
      episodesHelper epTrace .hypo 70 1 15 5 5 := by
    norm_num [episodesHelper, epTrace, inEpisode, edgeIdxs, List.range_succ,
      epGo, mkEp, List.filter]
  refine ⟨hmono, by norm_num, by norm_num, hkey.1, ?_⟩
  obtain ⟨a, ha, h1, h2⟩ := hkey.2 _ hmem
  exact ⟨a, ha, h1, h2⟩
